import Mathlib

/-!
Verification of the file-organizer core (`manager.py`).

The development shallowly embeds the routing engine of the repository:
`OrganizerHandler.on_modified`, `process_file`, `move_file`, `make_unique`
and the global bounded `log_buffer`, together with the pieces of the Python
standard library they lean on (`pathlib.Path.suffix` / `.stem`,
`str.lower`, `collections.deque(maxlen=50)`).

A filesystem is modelled as a map from directory path to the list of names
of the regular files it currently holds; the scanner only ever looks at
regular files, and `shutil.move` is modelled as removing the name from the
source listing and appending the destination name to the destination
listing.  Fallible operating-system calls (`Path.mkdir`, `shutil.move`)
are given an explicit failure environment: `none` means the call succeeds,
`some msg` means it raises an exception rendered as `msg`.
-/

/-! ### Python string/path primitives -/

/-- Index of the last occurrence of `'.'` in a list of characters
(`str.rfind('.')` restricted to success/failure via `Option`). -/
def rfindDot : List Char → Option Nat
  | [] => none
  | c :: cs =>
    match rfindDot cs with
    | some i => some (i + 1)
    | none => if c = '.' then some 0 else none

/-- `pathlib.PurePath.suffix` for a bare file name (no path separators):
the substring from the last dot to the end, provided that dot is neither
the first nor the last character; otherwise the empty string. -/
def pySuffix (name : String) : String :=
  match rfindDot name.data with
  | some i =>
    if 0 < i ∧ i < name.length - 1 then ⟨name.data.drop i⟩ else ""
  | none => ""

/-- `pathlib.PurePath.stem` for a bare file name: everything before the
suffix (the whole name when the suffix is empty). -/
def pyStem (name : String) : String :=
  match rfindDot name.data with
  | some i =>
    if 0 < i ∧ i < name.length - 1 then ⟨name.data.take i⟩ else name
  | none => name

/-- `str.lower`, modelled character-wise with `Char.toLower` (the ASCII
range, which is all the development ever quantifies over). -/
def pyLower (s : String) : String :=
  ⟨s.data.map Char.toLower⟩

/-- The extension used for rule lookup in `process_file`
(line 41: `ext = Path(name).suffix.lower()`). -/
def pyExt (name : String) : String :=
  pyLower (pySuffix name)

theorem rfindDot_eq_none (l : List Char) (h : '.' ∉ l) : rfindDot l = none := by
  induction l with
  | nil => rfl
  | cons c cs ih =>
    have hc : ¬c = '.' := fun hc => h (hc ▸ List.mem_cons_self c cs)
    have hcs : '.' ∉ cs := fun hm => h (List.mem_cons_of_mem _ hm)
    simp [rfindDot, ih hcs, hc]

theorem rfindDot_append (pre post : List Char) (h : '.' ∉ post) :
    rfindDot (pre ++ '.' :: post) = some pre.length := by
  induction pre with
  | nil => simp [rfindDot, rfindDot_eq_none post h]
  | cons c pre ih => simp [rfindDot, ih]

/-- On a name with no dot at all, `Path(name).suffix` is empty. -/
theorem pySuffix_no_dot (name : String) (h : '.' ∉ name.data) :
    pySuffix name = "" := by
  simp [pySuffix, rfindDot_eq_none name.data h]

/-- `stem ++ suffix` recovers the original name (at the level of character
data). -/
theorem pyStem_data_append_pySuffix_data (name : String) :
    (pyStem name).data ++ (pySuffix name).data = name.data := by
  unfold pyStem pySuffix
  cases hfd : rfindDot name.data with
  | none => simp
  | some i =>
    by_cases hcond : 0 < i ∧ i < name.length - 1
    · simp [hcond]
    · simp [hcond]

/-! ### Injectivity of the decimal rendering `Nat.repr` -/

/-- Clean decimal rendering of a natural number, used to reason about the
fuel-based `Nat.toDigitsCore` from core. -/
def decRepr (n : Nat) : List Char :=
  if n < 10 then [Nat.digitChar n]
  else decRepr (n / 10) ++ [Nat.digitChar (n % 10)]
decreasing_by
  exact Nat.div_lt_self (by omega) (by omega)

/-- Decimal decoding: left fold accumulating digit values. -/
def decVal (l : List Char) : Nat :=
  l.foldl (fun a c => a * 10 + (c.toNat - 48)) 0

theorem digitChar_toNat (d : Nat) (h : d < 10) :
    (Nat.digitChar d).toNat = 48 + d := by
  interval_cases d <;> rfl

theorem decVal_append_singleton (l : List Char) (c : Char) :
    decVal (l ++ [c]) = decVal l * 10 + (c.toNat - 48) := by
  simp [decVal, List.foldl_append]

theorem decVal_decRepr (n : Nat) : decVal (decRepr n) = n := by
  induction n using Nat.strong_induction_on with
  | _ n ih =>
    by_cases h : n < 10
    · rw [decRepr, if_pos h]
      simp [decVal, digitChar_toNat n h]
    · rw [decRepr, if_neg h]
      rw [decVal_append_singleton]
      rw [ih (n / 10) (Nat.div_lt_self (by omega) (by omega))]
      rw [digitChar_toNat (n % 10) (Nat.mod_lt _ (by omega))]
      omega

theorem decRepr_injective : Function.Injective decRepr := by
  intro a b h
  have := congrArg decVal h
  rwa [decVal_decRepr, decVal_decRepr] at this

/-- The fuel-based core loop agrees with `decRepr` whenever the fuel
suffices (it always does along `Nat.repr`). -/
theorem toDigitsCore_eq_decRepr :
    ∀ (fuel n : Nat) (acc : List Char), n < fuel →
      Nat.toDigitsCore 10 fuel n acc = decRepr n ++ acc := by
  intro fuel
  induction fuel with
  | zero => intro n acc h; omega
  | succ f ih =>
    intro n acc h
    show (if n / 10 = 0 then Nat.digitChar (n % 10) :: acc
          else Nat.toDigitsCore 10 f (n / 10) (Nat.digitChar (n % 10) :: acc))
        = decRepr n ++ acc
    by_cases hn : n < 10
    · have hdiv : n / 10 = 0 := Nat.div_eq_of_lt hn
      have hmod : n % 10 = n := Nat.mod_eq_of_lt hn
      rw [if_pos hdiv, decRepr, if_pos hn, hmod]
      rfl
    · have hdiv : ¬n / 10 = 0 := by omega
      rw [if_neg hdiv]
      rw [ih (n / 10) (Nat.digitChar (n % 10) :: acc) (by omega)]
      conv_rhs => rw [decRepr]
      rw [if_neg hn]
      simp

theorem repr_data (n : Nat) : (Nat.repr n).data = decRepr n := by
  show (Nat.toDigits 10 n).asString.data = decRepr n
  unfold Nat.toDigits
  rw [toDigitsCore_eq_decRepr (n + 1) n [] (Nat.lt_succ_self n)]
  simp [List.asString]

theorem nat_repr_injective : Function.Injective Nat.repr := by
  intro a b h
  exact decRepr_injective (by rw [← repr_data, ← repr_data, h])

/-! ### Collision resolver (`OrganizerHandler.make_unique`, lines 61-70) -/

/-- The candidate name `f"{base}({counter}){ext}"` tested by the loop in
`make_unique` (line 66). -/
def candidate (base ext : String) (counter : Nat) : String :=
  base ++ "(" ++ Nat.repr counter ++ ")" ++ ext

/-- The `while True` loop of `make_unique`, written with explicit fuel;
`make_unique` supplies enough fuel for the loop to be guaranteed to return
(see `make_unique_isSome`).  `dir` is the list of names currently present
in the destination directory, so `new_path.exists()` (line 68) is
membership in `dir`. -/
def make_unique_loop (dir : List String) (base ext : String) :
    Nat → Nat → Option String
  | 0, _ => none
  | fuel + 1, counter =>
    let new_name := candidate base ext counter
    if new_name ∈ dir then make_unique_loop dir base ext fuel (counter + 1)
    else some new_name

/-- `OrganizerHandler.make_unique` (lines 61-70): starting from
`counter = 1`, return the first `f"{base}({counter}){ext}"` that does not
exist in the destination directory.  The fuel `dir.length + 1` is enough
for the first free candidate to be found, because there are more distinct
candidates than occupants. -/
def make_unique (dir : List String) (filename : String) : Option String :=
  make_unique_loop dir (pyStem filename) (pySuffix filename)
    (dir.length + 1) 1

theorem candidate_data (base ext : String) (k : Nat) :
    (candidate base ext k).data
      = base.data ++ ('(' :: ((Nat.repr k).data ++ (')' :: ext.data))) := by
  simp [candidate]

theorem candidate_injective (base ext : String) :
    Function.Injective (candidate base ext) := by
  intro a b h
  have hd := congrArg String.data h
  rw [candidate_data, candidate_data] at hd
  have h1 := List.append_cancel_left hd
  have h2 : (Nat.repr a).data ++ (')' :: ext.data)
      = (Nat.repr b).data ++ (')' :: ext.data) := by
    simpa using h1
  have h3 := (List.append_inj' h2 rfl).1
  exact nat_repr_injective (String.ext h3)

/-- A collision candidate is never the plain name `base ++ ext` itself:
it is strictly longer because of the parenthesised counter. -/
theorem candidate_ne_of_data_eq_append (base ext x : String)
    (hx : base.data ++ ext.data = x.data) (k : Nat) :
    candidate base ext k ≠ x := by
  intro h
  have hd : (candidate base ext k).data.length = x.data.length := by rw [h]
  rw [candidate_data] at hd
  simp only [List.length_append, List.length_cons] at hd
  have hxlen : x.data.length = base.data.length + ext.data.length := by
    rw [← hx]; simp
  omega

/-- Behaviour of the fuel-based loop: if the candidates at counters
`k, k+1, ..., k+j-1` are all taken and the candidate at `k+j` is free,
then (with enough fuel) the loop returns the candidate at `k+j`. -/
theorem make_unique_loop_spec (dir : List String) (base ext : String) :
    ∀ (j fuel k : Nat), j < fuel →
      (∀ i, i < j → candidate base ext (k + i) ∈ dir) →
      candidate base ext (k + j) ∉ dir →
      make_unique_loop dir base ext fuel k
        = some (candidate base ext (k + j)) := by
  intro j
  induction j with
  | zero =>
    intro fuel k hfuel _ hfree
    match fuel, hfuel with
    | fuel + 1, _ =>
      simp only [make_unique_loop]
      rw [if_neg (by simpa using hfree)]
      simp
  | succ j ih =>
    intro fuel k hfuel htaken hfree
    match fuel, hfuel with
    | fuel + 1, hfuel =>
      simp only [make_unique_loop]
      rw [if_pos (by simpa using htaken 0 (by omega))]
      have := ih fuel (k + 1) (by omega)
        (fun i hi => by
          have := htaken (i + 1) (by omega)
          simpa [Nat.add_assoc, Nat.add_comm 1 i] using this)
        (by
          have : k + 1 + j = k + (j + 1) := by omega
          rw [this]; exact hfree)
      rw [this]
      congr 1
      congr 1
      omega

/-- The fuel supplied by `make_unique` always suffices: the loop cannot
return `none`, so the `while True` loop in the source terminates whenever
the destination directory is finite. -/
theorem make_unique_isSome (dir : List String) (filename : String) :
    (make_unique dir filename).isSome := by
  set base := pyStem filename
  set ext := pySuffix filename
  by_cases hall : ∀ i, i < dir.length + 1 → candidate base ext (1 + i) ∈ dir
  · exfalso
    have hsub : ((List.range' 1 (dir.length + 1)).map (candidate base ext))
        ⊆ dir := by
      intro y hy
      rcases List.mem_map.1 hy with ⟨k, hk, rfl⟩
      rcases List.mem_range'.1 hk with ⟨i, hi, rfl⟩
      simpa using hall i (by omega)
    have hnodup : ((List.range' 1 (dir.length + 1)).map
        (candidate base ext)).Nodup :=
      (List.nodup_range' 1 (dir.length + 1)).map (candidate_injective base ext)
    have := (List.subperm_of_subset hnodup hsub).length_le
    simp at this
  · push_neg at hall
    rcases hall with ⟨i, hi, hfree⟩
    -- take the least free index
    have hex : ∃ i, i < dir.length + 1 ∧ candidate base ext (1 + i) ∉ dir :=
      ⟨i, hi, hfree⟩
    classical
    let j := Nat.find hex
    have hj := Nat.find_spec hex
    have hmin := fun m (hm : m < j) => Nat.find_min hex hm
    have := make_unique_loop_spec dir base ext j (dir.length + 1) 1
      (by omega)
      (fun m hm => by
        have h1 := hmin m hm
        push_neg at h1
        exact h1 (by omega))
      hj.2
    unfold make_unique
    rw [this]
    rfl

/-! ### Rule table, activity log, filesystem state -/

/-- Python `dict` lookup on an association list with string keys
(`self.config["extensions"][ext]`, guarded by `ext in ...`). -/
def dictGet : List (String × String) → String → Option String
  | [], _ => none
  | (k, v) :: rest, key => if key = k then some v else dictGet rest key

/-- The configuration held by `OrganizerHandler` (`load_config`, lines
16-20): a source directory and the extension-to-destination rule table. -/
structure Config where
  source_dir : String
  extensions : List (String × String)

/-- One append to the global `log_buffer = deque(maxlen=50)` (line 14):
when the buffer is full the oldest entry is evicted. -/
def logAppend (log : List String) (e : String) : List String :=
  if log.length < 50 then log ++ [e] else log.tail ++ [e]

/-- System state seen by the handler: for every directory path, the list
of names of the regular files it currently holds, plus the shared
activity log. -/
structure SysState where
  fs : String → List String
  log : List String

/-- Pointwise update of the directory map. -/
def updateFS (fs : String → List String) (d : String) (c : List String) :
    String → List String :=
  fun x => if x = d then c else fs x

/-- Failure environment for one `move_file` invocation: whether
`dest_dir.mkdir(...)` (line 49) and `shutil.move` (line 56) raise, and the
message `str(e)` they raise with. -/
structure MoveEnv where
  mkdirFail : Option String
  moveFail : Option String

/-- The effect of a successful `shutil.move(entry.path, dest_path)`:
the name disappears from the source directory listing and the (possibly
renamed) name appears in the destination listing. -/
def doMove (fs : String → List String) (src_dir dest_dir oldName newName : String) :
    String → List String :=
  let fs1 := updateFS fs src_dir ((fs src_dir).erase oldName)
  updateFS fs1 dest_dir (fs1 dest_dir ++ [newName])

/-- The collision branch of `move_file` (lines 52-54): if the destination
path exists, rebind `name` to the `make_unique` result.  The `getD`
fallback is dead code by `make_unique_isSome`. -/
def resolveName (destContents : List String) (name : String) : String :=
  if name ∈ destContents then (make_unique destContents name).getD name
  else name

/-- `OrganizerHandler.move_file` (lines 47-59).  The whole body is a
`try/except Exception` block, so the function always returns a state and
never propagates a fault; each path appends exactly one entry to the
bounded log.  Note that on a failure of `shutil.move` the logged name is
the value of `name` at the time of the failure, i.e. the collision-resolved
name when line 53 ran. -/
def move_file (env : MoveEnv) (src_dir : String) (st : SysState)
    (dest_dir name : String) : SysState :=
  match env.mkdirFail with
  | some e =>
    { st with log := logAppend st.log ("Error moving " ++ name ++ ": " ++ e) }
  | none =>
    let name1 := resolveName (st.fs dest_dir) name
    match env.moveFail with
    | some e =>
      { st with
        log := logAppend st.log ("Error moving " ++ name1 ++ ": " ++ e) }
    | none =>
      { fs := doMove st.fs src_dir dest_dir name name1,
        log := logAppend st.log ("Moved: " ++ name1 ++ " → " ++ dest_dir) }

/-- `OrganizerHandler.process_file` (lines 39-45): extract the lowercased
suffix and, when it is a key of the rule table, hand the file to the
Mover. -/
def process_file (env : MoveEnv) (cfg : Config) (st : SysState)
    (name : String) : SysState :=
  match dictGet cfg.extensions (pyExt name) with
  | some dest => move_file env cfg.source_dir st dest name
  | none => st

/-- One scan pass over the top-level source directory (the loop body of
`on_modified`, lines 34-37), under a quiescent fault-free filesystem:
every entry of the listing taken at the start of the scan is processed in
order. -/
def scan (cfg : Config) (st : SysState) : SysState :=
  (st.fs cfg.source_dir).foldl
    (fun s n => process_file ⟨none, none⟩ cfg s n) st

/-- `OrganizerHandler.on_modified` (lines 30-37).  `isDirEvent` is
`event.is_directory`; `scandirFail` tells whether `os.scandir` raises and
with which message.  The second component of the result is the exception
escaping the handler, if any: there is no `try/except` in `on_modified`,
so a scandir failure leaves the state untouched and propagates. -/
def on_modified (cfg : Config) (isDirEvent : Bool)
    (scandirFail : Option String) (st : SysState) :
    SysState × Option String :=
  if isDirEvent then
    match scandirFail with
    | some e => (st, some e)
    | none => (scan cfg st, none)
  else (st, none)

/-! ### Supporting lemmas about the embedded operations -/

theorem dictGet_mem {l : List (String × String)} {key v : String}
    (h : dictGet l key = some v) : (key, v) ∈ l := by
  induction l with
  | nil => simp [dictGet] at h
  | cons p rest ih =>
    match p with
    | (k, w) =>
      by_cases hk : key = k
      · subst hk
        simp [dictGet] at h
        simp [h]
      · rw [dictGet, if_neg hk] at h
        exact List.mem_cons_of_mem _ (ih h)

/-- A file whose extension misses the rule table is not touched: the whole
system state (filesystem and log) is returned unchanged, under any failure
environment. -/
theorem process_file_not_matched (env : MoveEnv) (cfg : Config)
    (st : SysState) (name : String)
    (h : dictGet cfg.extensions (pyExt name) = none) :
    process_file env cfg st name = st := by
  simp [process_file, h]

/-- Whether the rule table routes a given file name. -/
def isMatched (cfg : Config) (name : String) : Bool :=
  (dictGet cfg.extensions (pyExt name)).isSome

/-- The cumulative effect of one scan on the source-directory listing:
each routed occurrence is erased. -/
def remMatched (cfg : Config) (names c : List String) : List String :=
  names.foldl (fun c n => if isMatched cfg n then c.erase n else c) c

theorem move_file_success_fs_src (src dest name : String) (st : SysState)
    (hne : dest ≠ src) :
    (move_file ⟨none, none⟩ src st dest name).fs src
      = (st.fs src).erase name := by
  simp only [move_file, doMove, updateFS]
  rw [if_neg (fun h => hne h.symm)]
  simp

theorem foldl_process_fs_src (cfg : Config)
    (hdest : ∀ p ∈ cfg.extensions, p.2 ≠ cfg.source_dir) :
    ∀ (names : List String) (st : SysState),
      ((names.foldl (fun s n => process_file ⟨none, none⟩ cfg s n) st).fs
          cfg.source_dir)
        = remMatched cfg names (st.fs cfg.source_dir) := by
  intro names
  induction names with
  | nil => intro st; rfl
  | cons n rest ih =>
    intro st
    rw [List.foldl_cons]
    show ((rest.foldl (fun s n => process_file ⟨none, none⟩ cfg s n)
        (process_file ⟨none, none⟩ cfg st n)).fs cfg.source_dir)
      = remMatched cfg (n :: rest) (st.fs cfg.source_dir)
    cases hm : dictGet cfg.extensions (pyExt n) with
    | none =>
      rw [process_file_not_matched _ _ _ _ hm, ih st]
      unfold remMatched
      rw [List.foldl_cons]
      have : isMatched cfg n = false := by simp [isMatched, hm]
      rw [this]
      simp
    | some dest =>
      have hproc : process_file ⟨none, none⟩ cfg st n
          = move_file ⟨none, none⟩ cfg.source_dir st dest n := by
        simp [process_file, hm]
      rw [hproc, ih]
      have hne : dest ≠ cfg.source_dir := hdest (pyExt n, dest) (dictGet_mem hm)
      rw [move_file_success_fs_src _ _ _ _ hne]
      unfold remMatched
      rw [List.foldl_cons]
      have : isMatched cfg n = true := by simp [isMatched, hm]
      rw [this]
      simp

theorem count_remMatched (cfg : Config) (n : String)
    (hn : isMatched cfg n = true) :
    ∀ (names c : List String),
      List.count n (remMatched cfg names c)
        = List.count n c - List.count n names := by
  intro names
  induction names with
  | nil => intro c; simp [remMatched]
  | cons m rest ih =>
    intro c
    unfold remMatched
    rw [List.foldl_cons]
    show List.count n (remMatched cfg rest
        (if isMatched cfg m then c.erase m else c))
      = List.count n c - List.count n (m :: rest)
    by_cases hmn : m = n
    · subst hmn
      rw [if_pos hn, ih (c.erase m)]
      rw [List.count_erase_self, List.count_cons_self]
      omega
    · have hcount : List.count n (m :: rest) = List.count n rest := by
        rw [List.count_cons_of_ne (fun h => hmn h.symm)]
      by_cases hmm : isMatched cfg m
      · rw [if_pos hmm, ih (c.erase m)]
        rw [List.count_erase_of_ne (fun h => hmn h.symm), hcount]
      · rw [if_neg hmm, ih c, hcount]

theorem not_matched_of_mem_remMatched (cfg : Config) (L : List String)
    (n : String) (hmem : n ∈ remMatched cfg L L) :
    isMatched cfg n = false := by
  by_contra h
  have hm : isMatched cfg n = true := by
    cases hb : isMatched cfg n
    · exact absurd hb h
    · rfl
  have hzero := count_remMatched cfg n hm L L
  rw [Nat.sub_self] at hzero
  exact (List.count_eq_zero.mp hzero) hmem

theorem foldl_process_id (cfg : Config) (names : List String) (st : SysState)
    (h : ∀ n ∈ names, isMatched cfg n = false) :
    names.foldl (fun s n => process_file ⟨none, none⟩ cfg s n) st = st := by
  induction names generalizing st with
  | nil => rfl
  | cons n rest ih =>
    rw [List.foldl_cons]
    have hn := h n (List.mem_cons_self n rest)
    have hnone : dictGet cfg.extensions (pyExt n) = none := by
      cases hd : dictGet cfg.extensions (pyExt n)
      · rfl
      · simp [isMatched, hd] at hn
    rw [process_file_not_matched _ _ _ _ hnone]
    exact ih st (fun m hm => h m (List.mem_cons_of_mem _ hm))

theorem logAppend_length_le (log : List String) (e : String)
    (h : log.length ≤ 50) : (logAppend log e).length ≤ 50 := by
  unfold logAppend
  by_cases hlt : log.length < 50
  · rw [if_pos hlt]; simp; omega
  · rw [if_neg hlt]
    simp [List.length_tail]
    omega

/-- Folding appends over the bounded buffer keeps exactly the most recent
fifty entries, oldest first. -/
theorem foldl_logAppend_eq :
    ∀ (es log : List String), log.length ≤ 50 →
      es.foldl logAppend log
        = (log ++ es).drop (log.length + es.length - 50) := by
  intro es
  induction es with
  | nil =>
    intro log h
    simp [Nat.sub_eq_zero_of_le h]
  | cons e es ih =>
    intro log h
    rw [List.foldl_cons]
    by_cases hlt : log.length < 50
    · have happ : logAppend log e = log ++ [e] := by
        unfold logAppend; rw [if_pos hlt]
      rw [happ, ih (log ++ [e]) (by simp; omega)]
      have hlen : (log ++ [e]).length = log.length + 1 := by simp
      rw [hlen, List.append_assoc]
      have harith : log.length + 1 + es.length - 50
          = log.length + (e :: es).length - 50 := by simp; omega
      rw [harith]
      rfl
    · have h50 : log.length = 50 := by omega
      have happ : logAppend log e = log.tail ++ [e] := by
        unfold logAppend; rw [if_neg hlt]
      match log, h50 with
      | c :: t, h50 =>
        have ht : (t : List String).length = 49 := by simpa using h50
        rw [happ, ih ((c :: t).tail ++ [e]) (by simp [ht])]
        have hlen : ((c :: t).tail ++ [e]).length = 50 := by simp [ht]
        rw [hlen]
        have harith1 : 50 + es.length - 50 = es.length := by omega
        have harith2 : (c :: t).length + (e :: es).length - 50
            = es.length + 1 := by simp [ht]
        rw [harith1, harith2]
        show ((t ++ [e]) ++ es).drop es.length
          = ((c :: (t ++ e :: es))).drop (es.length + 1)
        rw [List.drop_succ_cons, List.append_assoc]
        rfl

/-! ### ASCII facts about `Char.toLower` -/

theorem char_toNat_ofNat_valid (n : Nat) (h : Nat.isValidChar n) :
    (Char.ofNat n).toNat = n := by
  simp [Char.ofNat, dif_pos h, Char.ofNatAux, Char.toNat, UInt32.toNat,
    BitVec.toNat_ofNatLt]

/-- `Char.toLower` never returns an upper-case ASCII letter. -/
theorem toLower_not_upper (c : Char) :
    ¬(65 ≤ (Char.toLower c).toNat ∧ (Char.toLower c).toNat ≤ 90) := by
  rintro ⟨h1, h2⟩
  simp only [Char.toLower] at h1 h2
  by_cases h : c.toNat ≥ 65 ∧ c.toNat ≤ 90
  · rw [if_pos h] at h1 h2
    rw [char_toNat_ofNat_valid _ (Or.inl (by omega))] at h1 h2
    omega
  · rw [if_neg h] at h1 h2
    exact h ⟨h1, h2⟩

/-! ### Claim theorems -/

/-- C1: if the destination directory's occupants are exactly the files
`x, x(1), ..., x(N-1)` (stem/extension split of `x`, `N ≥ 1`), then the
collision path resolves an incoming `x` to exactly `x(N)`: the loop tests
`stem(counter)ext` from `counter = 1` and returns the first candidate not
present. -/
theorem collision_resolves_to_nth (x : String) (N : Nat) (dir : List String)
    (hN : 1 ≤ N)
    (hdir : ∀ n, n ∈ dir ↔
      (n = x ∨ ∃ k, 1 ≤ k ∧ k < N ∧ n = candidate (pyStem x) (pySuffix x) k)) :
    make_unique dir x = some (candidate (pyStem x) (pySuffix x) N) := by
  set base := pyStem x with hbase
  set ext := pySuffix x with hext
  have hne_x : ∀ k, candidate base ext k ≠ x := fun k =>
    candidate_ne_of_data_eq_append base ext x
      (pyStem_data_append_pySuffix_data x) k
  have hfree : candidate base ext N ∉ dir := by
    intro hmem
    rcases (hdir _).1 hmem with h | ⟨k, hk1, hk2, hk3⟩
    · exact hne_x N h
    · have := candidate_injective base ext hk3
      omega
  have htaken : ∀ i, i < N - 1 → candidate base ext (1 + i) ∈ dir := by
    intro i hi
    exact (hdir _).2 (Or.inr ⟨1 + i, by omega, by omega, rfl⟩)
  have hlen : N - 1 ≤ dir.length := by
    have hsub : ((List.range' 1 (N - 1)).map (candidate base ext)) ⊆ dir := by
      intro y hy
      rcases List.mem_map.1 hy with ⟨k, hk, rfl⟩
      rcases List.mem_range'.1 hk with ⟨i, hi, rfl⟩
      exact (hdir _).2 (Or.inr ⟨1 + 1 * i, by omega, by omega, rfl⟩)
    have hnodup : ((List.range' 1 (N - 1)).map (candidate base ext)).Nodup :=
      (List.nodup_range' 1 (N - 1)).map (candidate_injective base ext)
    have := (List.subperm_of_subset hnodup hsub).length_le
    simpa using this
  have hloop := make_unique_loop_spec dir base ext (N - 1) (dir.length + 1) 1
    (by omega) htaken (by
      have h1 : 1 + (N - 1) = N := by omega
      rw [h1]; exact hfree)
  unfold make_unique
  rw [← hbase, ← hext, hloop]
  congr 1
  congr 1
  omega

/-- C1 witness: two occupants `a.png`, `a(1).png`; resolving `a.png`
returns `a(2).png`. -/
theorem collision_resolves_to_nth_witness :
    make_unique ["a.png", "a(1).png"] "a.png"
      = some (candidate (pyStem "a.png") (pySuffix "a.png") 2) := by
  apply collision_resolves_to_nth "a.png" 2 ["a.png", "a(1).png"] (by decide)
  intro n
  constructor
  · intro hmem
    rcases List.mem_cons.1 hmem with h | hmem2
    · exact Or.inl h
    · rcases List.mem_cons.1 hmem2 with h | h
      · refine Or.inr ⟨1, by omega, by omega, ?_⟩
        rw [h]; decide
      · simp at h
  · intro hor
    rcases hor with h | ⟨k, hk1, hk2, heq⟩
    · rw [h]; exact List.mem_cons_self _ _
    · have hk : k = 1 := by omega
      subst hk
      rw [heq]
      have hcand : candidate (pyStem "a.png") (pySuffix "a.png") 1
          = "a(1).png" := by decide
      rw [hcand]
      exact List.mem_cons_of_mem _ (List.mem_cons_self _ _)

/-- C2 counterexample: when `os.scandir` raises, `on_modified` appends
nothing to the Activity Log (the claimed error entry does not appear) and
the exception escapes the handler uncaught. -/
theorem scan_failure_not_logged :
    (on_modified ⟨"/watched", [(".png", "/dest")]⟩ true
        (some "Permission denied")
        ⟨fun d => if d = "/watched" then ["a.png"] else [], []⟩).1.log = []
    ∧ (on_modified ⟨"/watched", [(".png", "/dest")]⟩ true
        (some "Permission denied")
        ⟨fun d => if d = "/watched" then ["a.png"] else [], []⟩).2
      = some "Permission denied" := by
  exact ⟨rfl, rfl⟩

/-- C2 amended: a failure opening/enumerating the source directory aborts
that scan before any file is processed and leaves the whole state — in
particular the Activity Log — unchanged, but the exception is NOT logged
and propagates out of `on_modified` (there is no `try/except` around the
`os.scandir` loop). -/
theorem scan_failure_aborts_unlogged (cfg : Config) (st : SysState)
    (e : String) :
    on_modified cfg true (some e) st = (st, some e) := rfl

/-- C3: whenever directory creation or the physical move fails, `move_file`
catches the exception (it is total and returns a state rather than
propagating), leaves the filesystem unchanged, and appends exactly one
failure entry to the bounded log. -/
theorem mover_catches_and_logs_once (env : MoveEnv) (src : String)
    (st : SysState) (dest_dir name : String)
    (hfail : env.mkdirFail.isSome ∨ env.moveFail.isSome) :
    ∃ n msg,
      (move_file env src st dest_dir name).fs = st.fs
      ∧ (move_file env src st dest_dir name).log
          = logAppend st.log ("Error moving " ++ n ++ ": " ++ msg)
      ∧ (st.log.length < 50 →
          (move_file env src st dest_dir name).log
            = st.log ++ ["Error moving " ++ n ++ ": " ++ msg]) := by
  cases hmk : env.mkdirFail with
  | some e =>
    refine ⟨name, e, ?_, ?_, ?_⟩
    · simp [move_file, hmk]
    · simp [move_file, hmk]
    · intro hlen
      simp [move_file, hmk, logAppend, hlen]
  | none =>
    cases hmv : env.moveFail with
    | none => rw [hmk, hmv] at hfail; simp at hfail
    | some e =>
      refine ⟨resolveName (st.fs dest_dir) name, e, ?_, ?_, ?_⟩
      · simp [move_file, hmk, hmv]
      · simp [move_file, hmk, hmv]
      · intro hlen
        simp [move_file, hmk, hmv, logAppend, hlen]

/-- C3 witness: a concrete failing move appends one failure entry and
leaves the filesystem unchanged. -/
theorem mover_catches_and_logs_once_witness :
    ∃ n msg,
      (move_file ⟨none, some "disk full"⟩ "/src"
          ⟨fun _ => [], []⟩ "/dest" "a.txt").fs = (fun _ => [])
      ∧ (move_file ⟨none, some "disk full"⟩ "/src"
          ⟨fun _ => [], []⟩ "/dest" "a.txt").log
          = logAppend [] ("Error moving " ++ n ++ ": " ++ msg)
      ∧ (([] : List String).length < 50 →
          (move_file ⟨none, some "disk full"⟩ "/src"
            ⟨fun _ => [], []⟩ "/dest" "a.txt").log
            = [] ++ ["Error moving " ++ n ++ ": " ++ msg]) :=
  mover_catches_and_logs_once ⟨none, some "disk full"⟩ "/src"
    ⟨fun _ => [], []⟩ "/dest" "a.txt" (by decide)

/-- C4 counterexample: the destination already holds `report.pdf`, so the
collision path rebinds `name` to `report(1).pdf`; when the move then
fails, the failure entry names `report(1).pdf` and does not contain the
original filename `report.pdf`. -/
theorem failure_entry_lacks_original_name :
    (move_file ⟨none, some "Permission denied"⟩ "/src"
        ⟨fun d => if d = "/dest" then ["report.pdf"] else [], []⟩
        "/dest" "report.pdf").log
      = ["Error moving report(1).pdf: Permission denied"]
    ∧ ¬ ("report.pdf".data <:+:
        "Error moving report(1).pdf: Permission denied".data) := by
  constructor
  · decide
  · decide

/-- C4 amended: the failure entry contains the binding of `name` current
at the point of failure: the original filename when `mkdir` fails (before
collision resolution), but the collision-resolved name when the physical
move fails after line 53 rebound `name`. -/
theorem failure_entry_names_current_binding (env : MoveEnv) (src : String)
    (st : SysState) (dest_dir name : String) :
    (∀ e, env.mkdirFail = some e →
      (move_file env src st dest_dir name).log
        = logAppend st.log ("Error moving " ++ name ++ ": " ++ e))
    ∧ (∀ e, env.mkdirFail = none → env.moveFail = some e →
      (move_file env src st dest_dir name).log
        = logAppend st.log ("Error moving "
            ++ resolveName (st.fs dest_dir) name ++ ": " ++ e)) := by
  constructor
  · intro e he
    simp [move_file, he]
  · intro e hmk hmv
    simp [move_file, hmk, hmv]

/-- C4 amended witness: both failure points, at concrete inputs. -/
theorem failure_entry_names_current_binding_witness :
    (move_file ⟨some "denied", none⟩ "/src"
        ⟨fun _ => [], []⟩ "/dest" "a.txt").log
      = logAppend [] ("Error moving " ++ "a.txt" ++ ": " ++ "denied")
    ∧ (move_file ⟨none, some "denied"⟩ "/src"
        ⟨fun _ => [], []⟩ "/dest" "a.txt").log
      = logAppend [] ("Error moving "
          ++ resolveName ((fun _ => ([] : List String)) "/dest") "a.txt"
          ++ ": " ++ "denied") :=
  ⟨(failure_entry_names_current_binding ⟨some "denied", none⟩ "/src"
      ⟨fun _ => [], []⟩ "/dest" "a.txt").1 "denied" rfl,
   (failure_entry_names_current_binding ⟨none, some "denied"⟩ "/src"
      ⟨fun _ => [], []⟩ "/dest" "a.txt").2 "denied" rfl rfl⟩

/-- C5 counterexample: `".bashrc"` contains a dot, and the substring from
its last dot to the end (lowercased) is `".bashrc"` itself, yet the code's
extension (`Path(name).suffix.lower()`) is the empty string: `pathlib`
treats a leading dot as a hidden-file marker, not an extension. -/
theorem dotfile_extension_differs :
    '.' ∈ (".bashrc" : String).data
    ∧ pyExt ".bashrc" = ""
    ∧ pyLower ".bashrc" = ".bashrc"
    ∧ pyExt ".bashrc" ≠ pyLower ".bashrc" := by
  refine ⟨by decide, by decide, by decide, by decide⟩

/-- C5 amended: for a filename whose last dot is neither the first nor the
last character, the lookup extension is exactly the substring from that
last dot to the end, lowercased; filenames whose only dot is leading
(".bashrc") or trailing ("file.") get the empty extension instead. -/
theorem extension_is_lowercased_tail (s : String) (pre post : List Char)
    (hsplit : s.data = pre ++ '.' :: post) (hpost : '.' ∉ post)
    (hpre : pre ≠ []) (hpost2 : post ≠ []) :
    pyExt s = pyLower ⟨'.' :: post⟩ := by
  have hfind : rfindDot s.data = some pre.length := by
    rw [hsplit]; exact rfindDot_append pre post hpost
  have hlen : s.length = pre.length + 1 + post.length := by
    show s.data.length = _
    rw [hsplit]; simp; omega
  have hcond : 0 < pre.length ∧ pre.length < s.length - 1 := by
    constructor
    · cases pre with
      | nil => exact absurd rfl hpre
      | cons a l => simp
    · cases post with
      | nil => exact absurd rfl hpost2
      | cons a l => rw [hlen]; simp; omega
  have hdrop : s.data.drop pre.length = '.' :: post := by
    rw [hsplit]
    exact List.drop_left pre ('.' :: post)
  have hsuffix : pySuffix s = ⟨'.' :: post⟩ := by
    unfold pySuffix
    rw [hfind]
    show (if 0 < pre.length ∧ pre.length < s.length - 1
        then (⟨s.data.drop pre.length⟩ : String) else "") = ⟨'.' :: post⟩
    rw [if_pos hcond, hdrop]
  unfold pyExt
  rw [hsuffix]

/-- C5 amended witness: `"Report.PDF"` gets extension `".pdf"`. -/
theorem extension_is_lowercased_tail_witness :
    pyExt "Report.PDF" = pyLower ⟨'.' :: "PDF".data⟩ :=
  extension_is_lowercased_tail "Report.PDF" "Report".data "PDF".data
    (by decide) (by decide) (by decide) (by decide)

/-- C6 counterexample: the rule table with the empty string as a key DOES
route a dot-free filename: `README` yields extension `""`, the lookup
succeeds, and the file is moved and logged. -/
theorem empty_key_routes_readme :
    (process_file ⟨none, none⟩ ⟨"/src", [("", "/dest")]⟩
        ⟨fun d => if d = "/src" then ["README"] else [], []⟩ "README").log
      = ["Moved: README → /dest"]
    ∧ (process_file ⟨none, none⟩ ⟨"/src", [("", "/dest")]⟩
        ⟨fun d => if d = "/src" then ["README"] else [], []⟩ "README").fs
        "/dest"
      = ["README"] := by
  refine ⟨by decide, by decide⟩

/-- C6 amended: a filename with no dot yields the empty extension, so it
is never routed or moved as long as the rule table does not contain the
empty string as a key (tables read back verbatim from the configuration
file can contain such a key, and it would match). -/
theorem no_dot_never_matches (env : MoveEnv) (cfg : Config) (st : SysState)
    (name : String)
    (hnodot : '.' ∉ name.data)
    (hkey : dictGet cfg.extensions "" = none) :
    process_file env cfg st name = st := by
  have hext : pyExt name = "" := by
    unfold pyExt
    rw [pySuffix_no_dot name hnodot]
    rfl
  exact process_file_not_matched env cfg st name (by rw [hext]; exact hkey)

/-- C6 amended witness. -/
theorem no_dot_never_matches_witness :
    process_file ⟨none, none⟩ ⟨"/src", [(".png", "/dest")]⟩
      ⟨fun _ => [], ["x"]⟩ "README"
      = ⟨fun _ => [], ["x"]⟩ :=
  no_dot_never_matches ⟨none, none⟩ ⟨"/src", [(".png", "/dest")]⟩
    ⟨fun _ => [], ["x"]⟩ "README" (by decide) (by decide)

/-- C7: a regular file whose extracted extension is absent from the rule
table is left untouched by the scan pipeline: the state is returned
unchanged — no move, no log entry, no error — under any failure
environment. -/
theorem unmatched_file_untouched (env : MoveEnv) (cfg : Config)
    (st : SysState) (name : String)
    (h : dictGet cfg.extensions (pyExt name) = none) :
    process_file env cfg st name = st :=
  process_file_not_matched env cfg st name h

/-- C7 witness: `notes.txt` under a `.png`-only rule table. -/
theorem unmatched_file_untouched_witness :
    process_file ⟨none, none⟩ ⟨"/src", [(".png", "/dest")]⟩
      ⟨fun d => if d = "/src" then ["notes.txt"] else [], []⟩ "notes.txt"
      = ⟨fun d => if d = "/src" then ["notes.txt"] else [], []⟩ :=
  unmatched_file_untouched ⟨none, none⟩ ⟨"/src", [(".png", "/dest")]⟩
    ⟨fun d => if d = "/src" then ["notes.txt"] else [], []⟩ "notes.txt"
    (by decide)

/-- C8: after any sequence of appends to the (initially empty) bounded
log, the buffer holds at most 50 entries, namely exactly the most recently
appended ones in append order; appending 60 entries therefore retains the
last 50 and evicts the oldest 10. -/
theorem log_keeps_last_fifty (es : List String) :
    (es.foldl logAppend []).length ≤ 50
    ∧ es.foldl logAppend [] = es.drop (es.length - 50) := by
  have h := foldl_logAppend_eq es [] (by simp)
  simp only [List.nil_append, List.length_nil, Nat.zero_add] at h
  refine ⟨?_, h⟩
  rw [h, List.length_drop]
  omega

/-- C9 counterexample: with a rule whose destination IS the source
directory, scanning is not idempotent: the first scan renames `a.png` to
`a(1).png` in place (one log entry), and a second scan with no new files
moves it again to `a(1)(1).png` and appends a second log entry. -/
theorem rescan_moves_again :
    (scan ⟨"/src", [(".png", "/src")]⟩
        (scan ⟨"/src", [(".png", "/src")]⟩
          ⟨fun d => if d = "/src" then ["a.png"] else [], []⟩)).log.length = 2
    ∧ (scan ⟨"/src", [(".png", "/src")]⟩
        ⟨fun d => if d = "/src" then ["a.png"] else [], []⟩).log.length = 1
    ∧ (scan ⟨"/src", [(".png", "/src")]⟩
        (scan ⟨"/src", [(".png", "/src")]⟩
          ⟨fun d => if d = "/src" then ["a.png"] else [], []⟩)).fs "/src"
      = ["a(1)(1).png"]
    ∧ (scan ⟨"/src", [(".png", "/src")]⟩
        ⟨fun d => if d = "/src" then ["a.png"] else [], []⟩).fs "/src"
      = ["a(1).png"] := by
  refine ⟨by decide, by decide, by decide, by decide⟩

/-- C9 amended: scanning IS idempotent on a quiescent fault-free
filesystem provided no rule routes into the source directory itself:
a second scan run immediately after a first, with no files added in
between, changes nothing at all — no moves and no log entries. -/
theorem scan_idempotent_off_source (cfg : Config) (st : SysState)
    (hdest : ∀ p ∈ cfg.extensions, p.2 ≠ cfg.source_dir) :
    scan cfg (scan cfg st) = scan cfg st := by
  have hlist := foldl_process_fs_src cfg hdest (st.fs cfg.source_dir) st
  show (((scan cfg st).fs cfg.source_dir).foldl
      (fun s n => process_file ⟨none, none⟩ cfg s n) (scan cfg st))
    = scan cfg st
  apply foldl_process_id
  intro n hn
  have hscan : (scan cfg st).fs cfg.source_dir
      = remMatched cfg (st.fs cfg.source_dir) (st.fs cfg.source_dir) := hlist
  rw [hscan] at hn
  exact not_matched_of_mem_remMatched cfg _ n hn

/-- C9 amended witness: destination distinct from the source directory. -/
theorem scan_idempotent_off_source_witness :
    scan ⟨"/src", [(".png", "/dest")]⟩
      (scan ⟨"/src", [(".png", "/dest")]⟩
        ⟨fun d => if d = "/src" then ["a.png"] else [], []⟩)
    = scan ⟨"/src", [(".png", "/dest")]⟩
      ⟨fun d => if d = "/src" then ["a.png"] else [], []⟩ :=
  scan_idempotent_off_source ⟨"/src", [(".png", "/dest")]⟩
    ⟨fun d => if d = "/src" then ["a.png"] else [], []⟩ (by decide)

/-- C10: a rule key containing an upper-case ASCII letter can never be
matched, because the extracted extension is lowercased before the
exact-string lookup: the extension differs from the key, and a
single-rule table with that key never yields a hit. -/
theorem uppercase_key_never_matches (key name : String)
    (h : ∃ c ∈ key.data, 65 ≤ c.toNat ∧ c.toNat ≤ 90) :
    pyExt name ≠ key
    ∧ ∀ dest, dictGet [(key, dest)] (pyExt name) = none := by
  have hne : pyExt name ≠ key := by
    intro heq
    rcases h with ⟨c, hc, hupper⟩
    rw [← heq] at hc
    have hc2 : c ∈ (pySuffix name).data.map Char.toLower := by
      simpa [pyExt, pyLower] using hc
    rcases List.mem_map.1 hc2 with ⟨d, _, hd⟩
    rw [← hd] at hupper
    exact toLower_not_upper d hupper
  refine ⟨hne, fun dest => ?_⟩
  unfold dictGet
  rw [if_neg hne]
  rfl

/-- C10 witness: the key `".PDF"` misses the file `x.PDF`, whose
extracted extension is `".pdf"`. -/
theorem uppercase_key_never_matches_witness :
    pyExt "x.PDF" ≠ ".PDF"
    ∧ ∀ dest, dictGet [(".PDF", dest)] (pyExt "x.PDF") = none :=
  uppercase_key_never_matches ".PDF" "x.PDF" (by decide)
